import Mathlib

/-!
Verification of the LoopPilot supplier-name resolution engine.

Python strings are modelled as lists of characters (ASCII-faithful models of
the string methods used by the source: lower, lstrip, rstrip, strip, replace,
split, join, title, startswith, membership).  External collaborators whose
values are outside a shallow embedding are modelled as oracle parameters:

* the scikit-learn TF-IDF cosine-similarity row (floating point) is an oracle
  sim : query -> cleaned reference list -> list of rational scores;
* the Python regex engine used by regex rules is an oracle
  rx : pattern -> text -> Bool;
* the YAML parser of the geolocation adapter is an oracle
  parse : file contents -> association list;
* file reading is modelled by passing the optional file contents
  (none models FileNotFoundError).

Every structural decision of the source (branch order, truthiness tests,
tie-breaking of numpy argmax, the running-maximum loop of the difflib
matcher) is translated directly from src/utils_data_cleansing.py,
src/utils_supplier_name.py and src/utils_geoloc.py.
-/

namespace LoopPilot

/-- Model of a Python str as a list of characters. -/
abbrev PyStr := List Char

/-- Shorthand turning a Lean string literal into the PyStr model. -/
def ofS (s : String) : PyStr := s.data

/-- ASCII model of str.lower applied to one character. -/
def pyLowerChar : Char → Char
  | 'A' => 'a' | 'B' => 'b' | 'C' => 'c' | 'D' => 'd' | 'E' => 'e' | 'F' => 'f'
  | 'G' => 'g' | 'H' => 'h' | 'I' => 'i' | 'J' => 'j' | 'K' => 'k' | 'L' => 'l'
  | 'M' => 'm' | 'N' => 'n' | 'O' => 'o' | 'P' => 'p' | 'Q' => 'q' | 'R' => 'r'
  | 'S' => 's' | 'T' => 't' | 'U' => 'u' | 'V' => 'v' | 'W' => 'w' | 'X' => 'x'
  | 'Y' => 'y' | 'Z' => 'z' | c => c

/-- ASCII model of str.upper applied to one character. -/
def pyUpperChar : Char → Char
  | 'a' => 'A' | 'b' => 'B' | 'c' => 'C' | 'd' => 'D' | 'e' => 'E' | 'f' => 'F'
  | 'g' => 'G' | 'h' => 'H' | 'i' => 'I' | 'j' => 'J' | 'k' => 'K' | 'l' => 'L'
  | 'm' => 'M' | 'n' => 'N' | 'o' => 'O' | 'p' => 'P' | 'q' => 'Q' | 'r' => 'R'
  | 's' => 'S' | 't' => 'T' | 'u' => 'U' | 'v' => 'V' | 'w' => 'W' | 'x' => 'X'
  | 'y' => 'Y' | 'z' => 'Z' | c => c

/-- The lowercase ASCII letters, the image alphabet of pyLowerChar. -/
def lowerAscii : List Char :=
  ['a', 'b', 'c', 'd', 'e', 'f', 'g', 'h', 'i', 'j', 'k', 'l', 'm', 'n', 'o', 'p',
   'q', 'r', 's', 't', 'u', 'v', 'w', 'x', 'y', 'z']

/-- ASCII model of str.lower. -/
def pyLower (s : PyStr) : PyStr := s.map pyLowerChar

/-- ASCII model of str.upper. -/
def pyUpper (s : PyStr) : PyStr := s.map pyUpperChar

/-- ASCII model of the cased characters used by str.title. -/
def pyIsAlpha (c : Char) : Bool :=
  decide (('a' ≤ c ∧ c ≤ 'z') ∨ ('A' ≤ c ∧ c ≤ 'Z'))

/-- Helper for pyTitle: the Bool records whether the previous character was cased. -/
def pyTitleAux : Bool → PyStr → PyStr
  | _, [] => []
  | prevAlpha, c :: rest =>
    (if pyIsAlpha c then (if prevAlpha then pyLowerChar c else pyUpperChar c) else c)
      :: pyTitleAux (pyIsAlpha c) rest

/-- ASCII model of str.title: uppercase each letter that follows a non-letter,
lowercase the other letters. -/
def pyTitle (s : PyStr) : PyStr := pyTitleAux false s

/-- Python whitespace characters stripped by str.strip with no argument. -/
def pyIsSpaceWs (c : Char) : Bool :=
  decide (c = ' ' ∨ c = '\t' ∨ c = '\n' ∨ c = '\r' ∨ c = Char.ofNat 11 ∨ c = Char.ofNat 12)

/-- Drop the longest leading run of characters satisfying p (models lstrip). -/
def dropLeading (p : Char → Bool) : PyStr → PyStr
  | [] => []
  | c :: rest => if p c then dropLeading p rest else c :: rest

/-- Drop the longest trailing run of characters satisfying p (models rstrip). -/
def dropTrailing (p : Char → Bool) : PyStr → PyStr
  | [] => []
  | c :: rest =>
    match dropTrailing p rest with
    | [] => if p c then [] else [c]
    | r :: rs => c :: r :: rs

/-- Model of str.lstrip applied with a single-space argument, as in the source. -/
def lstripSpace (s : PyStr) : PyStr := dropLeading (fun c => c = ' ') s

/-- Model of str.rstrip applied with a single-space argument, as in the source. -/
def rstripSpace (s : PyStr) : PyStr := dropTrailing (fun c => c = ' ') s

/-- Model of str.strip with no argument: trims Python whitespace on both ends. -/
def pyStripWs (s : PyStr) : PyStr :=
  dropTrailing pyIsSpaceWs (dropLeading pyIsSpaceWs s)

/-- Model of str.startswith: first argument is the string, second the pattern. -/
def pyStartsWith : PyStr → PyStr → Bool
  | _, [] => true
  | [], _ :: _ => false
  | c :: cs, p :: ps => c = p && pyStartsWith cs ps

/-- Fuel-indexed worker for pyReplace; the fuel is an upper bound on the number
of scan steps and equals the length of the scanned string at the call site. -/
def pyReplaceAux (new old : PyStr) : Nat → PyStr → PyStr
  | 0, s => s
  | _ + 1, [] => []
  | fuel + 1, c :: rest =>
    if pyStartsWith (c :: rest) old then
      new ++ pyReplaceAux new old fuel ((c :: rest).drop old.length)
    else
      c :: pyReplaceAux new old fuel rest

/-- Model of str.replace: replace every non-overlapping occurrence of old by
new, scanning left to right.  The source never calls it with an empty
pattern, so that degenerate case just returns the string. -/
def pyReplace (s old new : PyStr) : PyStr :=
  if old = [] then s else pyReplaceAux new old s.length s

/-- Model of str.split with a single-space separator: empty pieces are kept. -/
def pySplitSpace : PyStr → List PyStr
  | [] => [[]]
  | c :: rest =>
    if c = ' ' then [] :: pySplitSpace rest
    else
      match pySplitSpace rest with
      | [] => [[c]]
      | t :: ts => (c :: t) :: ts

/-- Model of a single-space str.join. -/
def pyJoinSpace : List PyStr → PyStr
  | [] => []
  | [t] => t
  | t :: t2 :: ts => t ++ ' ' :: pyJoinSpace (t2 :: ts)

/-- Occurrence check used to model the Python substring operator. -/
def occursCheck (pat : PyStr) : PyStr → Bool
  | [] => pyStartsWith [] pat
  | c :: rest => pyStartsWith (c :: rest) pat || occursCheck pat rest

/-- Model of the substring containment operator: pat occurs inside s. -/
def pyContains (s pat : PyStr) : Bool := occursCheck pat s

/-- The pattern occurs as a contiguous substring. -/
def occursIn (pat s : PyStr) : Prop := ∃ l r, s = l ++ pat ++ r

/-! ## utils_data_cleansing.py -/

/-- Punctuation deleted outright by rough_clean. -/
def punct_to_delete : List PyStr := [ofS ".", ofS "\"", ofS "#", ofS ",", ofS ";"]

/-- Separator tokens replaced by a single space by rough_clean. -/
def punct_to_space : List PyStr := [ofS "/", ofS "-", ofS "  ", ofS "   "]

/-- Legal-entity suffix tokens dropped by rough_clean. -/
def stopwords_to_delete : List PyStr :=
  [ofS "gmbh & cokg", ofS "gmbh & co kg", ofS "gmbh & co", ofS "gmbh", ofS "gmb",
   ofS "gmh", ofS "ltd", ofS "sp z o o", ofS "sa", ofS "sas", ofS "ab", ofS "nv",
   ofS "ag", ofS "bv", ofS "sp", ofS "spz"]

/-- The punctuation-deletion loop of rough_clean. -/
def cleanStage1 (t : PyStr) : PyStr :=
  punct_to_delete.foldl (fun a w => pyReplace a w []) t

/-- The separator-replacement loop of rough_clean. -/
def cleanStage2 (t : PyStr) : PyStr :=
  punct_to_space.foldl (fun a w => pyReplace a w [' ']) t

/-- Model of rough_clean from src/utils_data_cleansing.py: lowercase, strip
leading spaces, delete fixed punctuation, replace separators by spaces, drop
stopword tokens, rejoin and strip trailing spaces. -/
def rough_clean (text : PyStr) : PyStr :=
  let t := cleanStage2 (cleanStage1 (lstripSpace (pyLower text)))
  let ts := (pySplitSpace t).filter (fun i => decide (i ∉ stopwords_to_delete))
  rstripSpace (pyJoinSpace ts)

/-- Model of the rule dictionaries consumed by apply_rule. -/
structure Rule where
  type : PyStr
  pattern : PyStr
  replacement : PyStr
deriving DecidableEq

/-- Scan of the rule list inside apply_rule.  The regex branch consults the
oracle rx modelling re.search of the compiled pattern. -/
def applyRuleLoop (rx : PyStr → PyStr → Bool) (t : PyStr) : List Rule → PyStr
  | [] => pyTitle t
  | r :: rest =>
    if r.type = ofS "equals" ∧ pyLower r.pattern = pyLower t then r.replacement
    else if r.type = ofS "regex" ∧ rx r.pattern (pyLower t) then r.replacement
    else if r.type = ofS "startswith" ∧ pyStartsWith t (pyLower r.pattern) then r.replacement
    else if r.type = ofS "contains" ∧ pyContains t r.pattern then r.replacement
    else applyRuleLoop rx t rest

/-- Model of apply_rule from src/utils_data_cleansing.py: clean the text, then
return the replacement of the first matching rule, else the cleaned text
title-cased. -/
def apply_rule (rx : PyStr → PyStr → Bool) (text : PyStr) (rules : List Rule) : PyStr :=
  applyRuleLoop rx (rough_clean text) rules

/-! ## utils_supplier_name.py -/

/-- Model of numpy argmax on the similarity row: index of the first occurrence
of the maximum (the running maximum is replaced only on a strict increase). -/
def argmaxAux : List ℚ → ℚ → Nat → Nat → Nat
  | [], _, _, best => best
  | x :: rest, cur, i, best =>
    if x > cur then argmaxAux rest x (i + 1) i else argmaxAux rest cur (i + 1) best

/-- Model of numpy argmax; numpy raises on an empty array, which the source
never reaches, so the empty case is mapped to index 0. -/
def npArgmax : List ℚ → Nat
  | [] => 0
  | x :: rest => argmaxAux rest x 1 0

/-- The candidate string built by guess_supplier_name before matching: the
rule-engine output when a rule list is supplied and non-empty, else the
title-cased cleaned name.  A missing rule list and an empty one behave
identically because the source tests plain truthiness of the argument. -/
def cleanedOf (rx : PyStr → PyStr → Bool) (name : PyStr) (rules : List Rule) : PyStr :=
  if rules ≠ [] then apply_rule rx name rules else pyTitle (rough_clean name)

/-- Model of guess_supplier_name from src/utils_supplier_name.py.  The oracle
sim returns the cosine-similarity row of the cleaned query against the cleaned
reference names, as computed by the TF-IDF model the call fits on the query
plus the references. -/
def guess_supplier_name (rx : PyStr → PyStr → Bool) (sim : PyStr → List PyStr → List ℚ)
    (name : Option PyStr) (known_suppliers : List PyStr) (rules : List Rule)
    (min_score : ℚ) : Option PyStr :=
  match name with
  | none => none
  | some name =>
    if known_suppliers = [] then none
    else
      let cleaned := cleanedOf rx name rules
      if cleaned ∈ known_suppliers then some cleaned
      else
        let target := rough_clean cleaned
        let normalized_candidates := known_suppliers.map rough_clean
        if pyStripWs target = [] ∨ ¬ normalized_candidates.any (fun c => !c.isEmpty) then
          some cleaned
        else
          let similarities := sim target normalized_candidates
          let best_index := npArgmax similarities
          let best_score := if similarities = [] then 0 else similarities.getD best_index 0
          if best_score ≥ min_score then some (known_suppliers.getD best_index [])
          else some cleaned

/-- Loop body of guess_supplier_name_from_priority: skip absent and blank
entries and return the first resolution (the source strips each candidate
before resolving it). -/
def priorityLoop (rx : PyStr → PyStr → Bool) (sim : PyStr → List PyStr → List ℚ)
    (known_suppliers : List PyStr) (rules : List Rule) (min_score : ℚ) :
    List (Option PyStr) → Option PyStr
  | [] => none
  | none :: rest => priorityLoop rx sim known_suppliers rules min_score rest
  | some candidate :: rest =>
    let candidate := pyStripWs candidate
    if candidate = [] then priorityLoop rx sim known_suppliers rules min_score rest
    else
      match guess_supplier_name rx sim (some candidate) known_suppliers rules min_score with
      | some resolved => some resolved
      | none => priorityLoop rx sim known_suppliers rules min_score rest

/-- Model of guess_supplier_name_from_priority from src/utils_supplier_name.py. -/
def guess_supplier_name_from_priority (rx : PyStr → PyStr → Bool)
    (sim : PyStr → List PyStr → List ℚ) (names : List (Option PyStr))
    (known_suppliers : List PyStr) (rules : List Rule) (min_score : ℚ) : Option PyStr :=
  if known_suppliers = [] then none
  else priorityLoop rx sim known_suppliers rules min_score names

/-- Per-item body of batch_guess_supplier_names.  The oracle simB returns the
cosine-similarity row of the transformed query against the TF-IDF matrix that
build_tfidf_matcher fitted once on the cleaned reference names; the guard on
the empty reference list has already been taken by the caller. -/
def batchItem (rx : PyStr → PyStr → Bool) (simB : PyStr → List PyStr → List ℚ)
    (known_list : List PyStr) (rules : List Rule) (min_score : ℚ) :
    Option PyStr → Option PyStr
  | none => none
  | some raw =>
    let prepared := pyStripWs raw
    if prepared = [] then none
    else
      let cleaned := cleanedOf rx prepared rules
      let target := rough_clean cleaned
      if pyStripWs target = [] then some cleaned
      else
        let similarities := simB target (known_list.map rough_clean)
        if similarities ≠ [] then
          let best_index := npArgmax similarities
          let best_score := similarities.getD best_index 0
          if best_score ≥ min_score then some (known_list.getD best_index [])
          else some cleaned
        else some cleaned

/-- Model of batch_guess_supplier_names from src/utils_supplier_name.py. -/
def batch_guess_supplier_names (rx : PyStr → PyStr → Bool)
    (simB : PyStr → List PyStr → List ℚ) (names : List (Option PyStr))
    (known_suppliers : List PyStr) (rules : List Rule) (min_score : ℚ) :
    List (Option PyStr) :=
  if known_suppliers = [] then names.map (fun _ => none)
  else names.map (batchItem rx simB known_suppliers rules min_score)

/-- Running-maximum loop of fuzzy_guess_supplier_name: the best match is
replaced only when a ratio is strictly greater than the best score so far. -/
def fuzzyLoop (ratio : PyStr → PyStr → ℚ) (target : PyStr) :
    List PyStr → ℚ → Option PyStr → ℚ × Option PyStr
  | [], best_score, best_match => (best_score, best_match)
  | candidate :: rest, best_score, best_match =>
    let r := ratio target (rough_clean candidate)
    if r > best_score then fuzzyLoop ratio target rest r (some candidate)
    else fuzzyLoop ratio target rest best_score best_match

/-- Model of fuzzy_guess_supplier_name from src/utils_supplier_name.py.  The
oracle ratio models difflib.SequenceMatcher.ratio of the two cleaned strings. -/
def fuzzy_guess_supplier_name (rx : PyStr → PyStr → Bool) (ratio : PyStr → PyStr → ℚ)
    (name : Option PyStr) (known_suppliers : List PyStr) (rules : List Rule)
    (min_ratio : ℚ) : Option PyStr :=
  match name with
  | none => none
  | some name =>
    if known_suppliers = [] then none
    else
      let cleaned := cleanedOf rx name rules
      let target := rough_clean cleaned
      if pyStripWs target = [] then some cleaned
      else
        let best := fuzzyLoop ratio target known_suppliers 0 none
        if best.1 ≥ min_ratio then best.2 else some cleaned

/-! ## utils_geoloc.py -/

/-- Lookup in the model of a Python dict (keys are unique in a dict, so the
first hit of this association-list scan agrees with the dict lookup). -/
def pyLookup {V : Type} (k : PyStr) : List (PyStr × V) → Option V
  | [] => none
  | (k2, v) :: rest => if k = k2 then some v else pyLookup k rest

/-- Warning text produced by load_data for a missing file. -/
def fileNotFoundMsg (path : PyStr) : PyStr :=
  ofS "Geolocation mapping file not found: " ++ path

/-- Model of load_data from src/utils_geoloc.py.  The optional contents model
the result of opening the file (none is FileNotFoundError) and parse models
yaml.safe_load (or the built-in fallback parser) returning the raw mapping. -/
def load_data {V : Type} (parse : PyStr → List (PyStr × V)) (path : PyStr)
    (contents : Option PyStr) : List (PyStr × V) × List PyStr :=
  match contents with
  | some c => ((parse c).map (fun kv => (pyUpper kv.1, kv.2)), [])
  | none => ([], [fileNotFoundMsg path])

/-- Error text of the KeyError raised by get_geoloc. -/
def keyErrorMsg (name : PyStr) : PyStr :=
  ofS "Supplier name " ++ name ++ ofS " not found in geolocation rules."

/-- Model of get_geoloc from src/utils_geoloc.py.  A raised KeyError is
modelled as the error branch of Except; a found value v is ok (some v) and a
returned default d is ok d. -/
def get_geoloc {V : Type} (name : PyStr) (rules : List (PyStr × V))
    (default_return : Option V) (raise_on_missing : Bool) : Except PyStr (Option V) :=
  let normalized_name := pyUpper name
  match pyLookup normalized_name rules with
  | some v => Except.ok (some v)
  | none =>
    if raise_on_missing then Except.error (keyErrorMsg name)
    else Except.ok default_return

/-- First entry of a priority list that is neither absent nor whitespace-only;
this is the candidate guess_supplier_name_from_priority resolves. -/
def firstNonBlank : List (Option PyStr) → Option PyStr
  | [] => none
  | none :: rest => firstNonBlank rest
  | some c :: rest => if pyStripWs c = [] then firstNonBlank rest else some c

/-! ## General lemmas -/

theorem rough_clean_nil : rough_clean [] = [] := by decide

theorem pyStripWs_nil : pyStripWs [] = [] := by decide

/-! ## Claims -/

/-- C5: guess_supplier_name returns the absence marker None when the raw name
is absent (for every reference list) and when the reference list is empty (for
every raw name); guess_supplier_name_from_priority returns None whenever the
reference list is empty. -/
theorem c5_absence_markers :
    (∀ rx sim refs rules t, guess_supplier_name rx sim none refs rules t = none)
    ∧ (∀ rx sim raw rules t, guess_supplier_name rx sim (some raw) [] rules t = none)
    ∧ (∀ rx sim names rules t,
        guess_supplier_name_from_priority rx sim names [] rules t = none) := by
  refine ⟨fun rx sim refs rules t => rfl, fun rx sim raw rules t => ?_,
    fun rx sim names rules t => ?_⟩
  · simp [guess_supplier_name]
  · simp [guess_supplier_name_from_priority]

/-- C2 is refuted as stated: the string GMBH is a verbatim member of the
reference list [GMBH], yet guess_supplier_name returns the empty string (the
exact-match shortcut tests the cleaned, title-cased candidate, and cleaning
erases the legal-suffix token gmbh), not the raw string. -/
theorem c2_counterexample :
    ofS "GMBH" ∈ [ofS "GMBH"]
    ∧ guess_supplier_name (fun _ _ => false) (fun _ _ => []) (some (ofS "GMBH"))
        [ofS "GMBH"] [] 0 = some (ofS "")
    ∧ some (ofS "") ≠ some (ofS "GMBH") := by decide

/-- C2 amended: for every threshold, a raw name that is a verbatim member of
the reference list is returned unchanged provided cleaning plus title-casing
fixes it, because then the exact-match shortcut fires on the candidate. -/
theorem c2_amended_exact_member :
    ∀ (rx : PyStr → PyStr → Bool) (sim : PyStr → List PyStr → List ℚ)
      (refs : List PyStr) (raw : PyStr) (t : ℚ),
      raw ∈ refs → pyTitle (rough_clean raw) = raw →
      guess_supplier_name rx sim (some raw) refs [] t = some raw := by
  intro rx sim refs raw t hmem hfix
  have hne : refs ≠ [] := List.ne_nil_of_mem hmem
  simp [guess_supplier_name, cleanedOf, hfix, hmem, hne]

/-- Witness for the amended C2 at a concrete input. -/
theorem c2_amended_exact_member_witness :
    guess_supplier_name (fun _ _ => false) (fun _ _ => []) (some (ofS "Alstom"))
      [ofS "Alstom"] [] 0 = some (ofS "Alstom") :=
  c2_amended_exact_member _ _ _ _ _ (by decide) (by decide)

/-- C4 is refuted as stated: the equals rule on pattern x fires and rewrites
the input to X, but because X is not in the reference list, the similarity
stage still runs and the reference entry Alstom, whose score is at or above
the threshold 0 (every cosine score of nonnegative vectors is), is returned
instead of the replacement. -/
theorem c4_counterexample :
    apply_rule (fun _ _ => false) (ofS "x")
      [⟨ofS "equals", ofS "x", ofS "X"⟩] = ofS "X"
    ∧ guess_supplier_name (fun _ _ => false) (fun _ _ => [1]) (some (ofS "x"))
        [ofS "Alstom"] [⟨ofS "equals", ofS "x", ofS "X"⟩] 0 = some (ofS "Alstom")
    ∧ some (ofS "Alstom") ≠ some (ofS "X") := by decide

/-- C4 amended: the rule-engine output takes precedence over every similarity
score when it is itself a member of the reference list (the exact-match
shortcut then returns it before any scoring); when the replacement is not in
the reference list, scoring may override it. -/
theorem c4_amended_rule_precedence :
    ∀ (rx : PyStr → PyStr → Bool) (sim : PyStr → List PyStr → List ℚ)
      (name : PyStr) (refs : List PyStr) (rules : List Rule) (t : ℚ),
      rules ≠ [] → apply_rule rx name rules ∈ refs →
      guess_supplier_name rx sim (some name) refs rules t
        = some (apply_rule rx name rules) := by
  intro rx sim name refs rules t hrules hmem
  have hne : refs ≠ [] := List.ne_nil_of_mem hmem
  simp [guess_supplier_name, cleanedOf, hrules, hmem, hne]

/-- Witness for the amended C4: the matched rule maps Huebner GmbH to Hubner,
a reference-list member, which is returned for an arbitrary oracle and
threshold. -/
theorem c4_amended_rule_precedence_witness :
    guess_supplier_name (fun _ _ => false) (fun _ _ => [1]) (some (ofS "Huebner GmbH"))
      [ofS "Hubner"] [⟨ofS "equals", ofS "huebner", ofS "Hubner"⟩] 0
      = some (ofS "Hubner") := by
  have h := c4_amended_rule_precedence (fun _ _ => false) (fun _ _ => [1])
    (ofS "Huebner GmbH") [ofS "Hubner"]
    [⟨ofS "equals", ofS "huebner", ofS "Hubner"⟩] 0 (by decide) (by decide)
  rw [h]
  decide

/-- C7: for a present raw name and a non-empty reference list, when the
cleaned candidate is empty or every cleaned reference entry is empty, the
result is the candidate itself for every similarity oracle, so no scoring is
consulted and no failure is possible. -/
theorem c7_degenerate_skips_scoring :
    ∀ (rx : PyStr → PyStr → Bool) (name : PyStr) (refs : List PyStr)
      (rules : List Rule) (t : ℚ),
      refs ≠ [] →
      (rough_clean (cleanedOf rx name rules) = [] ∨ ∀ r ∈ refs, rough_clean r = []) →
      ∀ sim, guess_supplier_name rx sim (some name) refs rules t
        = some (cleanedOf rx name rules) := by
  intro rx name refs rules t hne hdeg sim
  by_cases hmem : cleanedOf rx name rules ∈ refs
  · simp [guess_supplier_name, hne, hmem]
  · have hguard : pyStripWs (rough_clean (cleanedOf rx name rules)) = []
        ∨ ¬ (refs.map rough_clean).any (fun c => !c.isEmpty) = true := by
      rcases hdeg with h | h
      · exact Or.inl (by rw [h]; rfl)
      · refine Or.inr ?_
        simp only [List.any_map, List.any_eq_true, Function.comp]
        rintro ⟨r, hr, hb⟩
        rw [h r hr] at hb
        simp at hb
    simp only [guess_supplier_name, hne, if_false]
    rw [if_neg hmem, if_pos hguard]

/-- Witness for C7 at a concrete degenerate input: GMBH cleans to the empty
string, so the candidate (the empty string) is returned unscored. -/
theorem c7_degenerate_skips_scoring_witness :
    guess_supplier_name (fun _ _ => false) (fun _ _ => [1]) (some (ofS "GMBH"))
      [ofS "Alstom"] [] 0 = some (cleanedOf (fun _ _ => false) (ofS "GMBH") []) :=
  c7_degenerate_skips_scoring (fun _ _ => false) (ofS "GMBH") [ofS "Alstom"] [] 0
    (by decide) (Or.inl (by decide)) (fun _ _ => [1])

/-- For a present name and non-empty reference list every branch of
guess_supplier_name yields a string. -/
theorem guess_supplier_name_ne_none (rx : PyStr → PyStr → Bool)
    (sim : PyStr → List PyStr → List ℚ) (name : PyStr) (refs : List PyStr)
    (rules : List Rule) (t : ℚ) (hne : refs ≠ []) :
    guess_supplier_name rx sim (some name) refs rules t ≠ none := by
  simp only [guess_supplier_name, hne, if_false]
  split_ifs <;> simp

/-- The priority loop returns the resolution of the first usable candidate. -/
theorem priorityLoop_firstNonBlank (rx : PyStr → PyStr → Bool)
    (sim : PyStr → List PyStr → List ℚ) (refs : List PyStr) (rules : List Rule)
    (t : ℚ) (hne : refs ≠ []) :
    ∀ (names : List (Option PyStr)) (c : PyStr), firstNonBlank names = some c →
      priorityLoop rx sim refs rules t names
        = guess_supplier_name rx sim (some (pyStripWs c)) refs rules t := by
  intro names
  induction names with
  | nil => intro c hc; simp [firstNonBlank] at hc
  | cons head rest ih =>
    intro c hc
    match head with
    | none =>
      simp only [firstNonBlank] at hc
      simpa [priorityLoop] using ih c hc
    | some cand =>
      simp only [firstNonBlank] at hc
      by_cases hblank : pyStripWs cand = []
      · rw [if_pos hblank] at hc
        simpa [priorityLoop, hblank] using ih c hc
      · rw [if_neg hblank] at hc
        cases hc
        simp only [priorityLoop, hblank, if_false]
        obtain ⟨r, hr⟩ := Option.ne_none_iff_exists.mp
          (guess_supplier_name_ne_none rx sim (pyStripWs c) refs rules t hne)
        rw [← hr]

/-- C10: with a present raw name and a non-empty reference list,
guess_supplier_name never returns the absence marker, and consequently
guess_supplier_name_from_priority returns the resolution of the first
candidate that is neither absent nor whitespace-only (stripped, as the source
strips each candidate before resolving), ignoring all later candidates. -/
theorem c10_never_none_and_priority :
    (∀ (rx : PyStr → PyStr → Bool) (sim : PyStr → List PyStr → List ℚ)
       (name : PyStr) (refs : List PyStr) (rules : List Rule) (t : ℚ),
       refs ≠ [] → guess_supplier_name rx sim (some name) refs rules t ≠ none)
    ∧ (∀ (rx : PyStr → PyStr → Bool) (sim : PyStr → List PyStr → List ℚ)
        (names : List (Option PyStr)) (refs : List PyStr) (rules : List Rule)
        (t : ℚ) (c : PyStr),
        refs ≠ [] → firstNonBlank names = some c →
        guess_supplier_name_from_priority rx sim names refs rules t
          = guess_supplier_name rx sim (some (pyStripWs c)) refs rules t) := by
  refine ⟨fun rx sim name refs rules t hne =>
      guess_supplier_name_ne_none rx sim name refs rules t hne,
    fun rx sim names refs rules t c hne hc => ?_⟩
  simp only [guess_supplier_name_from_priority, hne, if_false]
  exact priorityLoop_firstNonBlank rx sim refs rules t hne names c hc

/-- Witness for C10 at a concrete priority list: the first usable candidate is
Siemen, whose resolution (the oracle score 1 accepts Siemens) is returned. -/
theorem c10_never_none_and_priority_witness :
    guess_supplier_name_from_priority (fun _ _ => false) (fun _ _ => [1])
        [none, some (ofS "  "), some (ofS "Siemen"), some (ofS "Fallback")]
        [ofS "Siemens"] [] 0
      = guess_supplier_name (fun _ _ => false) (fun _ _ => [1])
        (some (pyStripWs (ofS "Siemen"))) [ofS "Siemens"] [] 0 :=
  c10_never_none_and_priority.2 (fun _ _ => false) (fun _ _ => [1])
    [none, some (ofS "  "), some (ofS "Siemen"), some (ofS "Fallback")]
    [ofS "Siemens"] [] 0 (ofS "Siemen") (by decide) (by decide)

/-- C6: with every input fixed, the similarity row is threshold-independent,
so the result at a raised threshold can only move from a canonical match to
the cleaned fallback: a fallback stays a fallback, and a canonical result at
the higher threshold is already the result at the lower one. -/
theorem c6_threshold_monotonicity :
    ∀ (rx : PyStr → PyStr → Bool) (sim : PyStr → List PyStr → List ℚ)
      (name : PyStr) (refs : List PyStr) (rules : List Rule) (t t2 : ℚ),
      t ≤ t2 →
      (guess_supplier_name rx sim (some name) refs rules t
          = some (cleanedOf rx name rules) →
        guess_supplier_name rx sim (some name) refs rules t2
          = some (cleanedOf rx name rules))
      ∧ (∀ r, guess_supplier_name rx sim (some name) refs rules t2 = some r →
          r ≠ cleanedOf rx name rules →
          guess_supplier_name rx sim (some name) refs rules t = some r) := by
  intro rx sim name refs rules t t2 htt
  by_cases hne : refs = []
  · constructor
    · intro h
      rw [hne] at h
      simp [guess_supplier_name] at h
    · intro r h
      rw [hne] at h
      simp [guess_supplier_name] at h
  by_cases hmem : cleanedOf rx name rules ∈ refs
  · have hval : ∀ u, guess_supplier_name rx sim (some name) refs rules u
        = some (cleanedOf rx name rules) := by
      intro u
      simp [guess_supplier_name, hne, hmem]
    refine ⟨fun _ => hval t2, fun r h2 hrc => absurd ?_ hrc⟩
    rw [hval t2] at h2
    exact (Option.some_injective _ h2).symm
  by_cases hguard : pyStripWs (rough_clean (cleanedOf rx name rules)) = []
      ∨ ¬ ((refs.map rough_clean).any (fun x => !x.isEmpty)) = true
  · have hval : ∀ u, guess_supplier_name rx sim (some name) refs rules u
        = some (cleanedOf rx name rules) := by
      intro u
      simp only [guess_supplier_name, hne, if_false]
      rw [if_neg hmem, if_pos hguard]
    refine ⟨fun _ => hval t2, fun r h2 hrc => absurd ?_ hrc⟩
    rw [hval t2] at h2
    exact (Option.some_injective _ h2).symm
  · have hval : ∀ u, guess_supplier_name rx sim (some name) refs rules u
        = if (if sim (rough_clean (cleanedOf rx name rules)) (refs.map rough_clean) = []
                then (0 : ℚ)
                else (sim (rough_clean (cleanedOf rx name rules))
                    (refs.map rough_clean)).getD
                  (npArgmax (sim (rough_clean (cleanedOf rx name rules))
                    (refs.map rough_clean))) 0) ≥ u
          then some (refs.getD (npArgmax (sim (rough_clean (cleanedOf rx name rules))
            (refs.map rough_clean))) [])
          else some (cleanedOf rx name rules) := by
      intro u
      simp only [guess_supplier_name, hne, if_false]
      rw [if_neg hmem, if_neg hguard]
    have hnc : refs.getD (npArgmax (sim (rough_clean (cleanedOf rx name rules))
        (refs.map rough_clean))) [] ≠ cleanedOf rx name rules := by
      set idx := npArgmax (sim (rough_clean (cleanedOf rx name rules))
        (refs.map rough_clean))
      by_cases hidx : idx < refs.length
      · intro heq
        have hm : refs.getD idx [] ∈ refs := by
          rw [List.getD_eq_getElem refs [] hidx]
          exact List.getElem_mem hidx
        rw [heq] at hm
        exact hmem hm
      · rw [List.getD_eq_default refs [] (Nat.le_of_not_lt hidx)]
        intro heq
        apply hguard
        refine Or.inl ?_
        rw [← heq, rough_clean_nil, pyStripWs_nil]
    constructor
    · intro h1
      rw [hval t] at h1
      rw [hval t2]
      by_cases hs : (if sim (rough_clean (cleanedOf rx name rules))
            (refs.map rough_clean) = [] then (0 : ℚ)
          else (sim (rough_clean (cleanedOf rx name rules))
              (refs.map rough_clean)).getD
            (npArgmax (sim (rough_clean (cleanedOf rx name rules))
              (refs.map rough_clean))) 0) ≥ t
      · rw [if_pos hs] at h1
        exact absurd (Option.some_injective _ h1) hnc
      · have hs2 : ¬ (if sim (rough_clean (cleanedOf rx name rules))
              (refs.map rough_clean) = [] then (0 : ℚ)
            else (sim (rough_clean (cleanedOf rx name rules))
                (refs.map rough_clean)).getD
              (npArgmax (sim (rough_clean (cleanedOf rx name rules))
                (refs.map rough_clean))) 0) ≥ t2 :=
          fun h => hs (le_trans htt h)
        rw [if_neg hs2]
    · intro r h2 hrc
      rw [hval t2] at h2
      rw [hval t]
      by_cases hs2 : (if sim (rough_clean (cleanedOf rx name rules))
            (refs.map rough_clean) = [] then (0 : ℚ)
          else (sim (rough_clean (cleanedOf rx name rules))
              (refs.map rough_clean)).getD
            (npArgmax (sim (rough_clean (cleanedOf rx name rules))
              (refs.map rough_clean))) 0) ≥ t2
      · rw [if_pos hs2] at h2
        rw [if_pos (le_trans htt hs2)]
        exact h2
      · rw [if_neg hs2] at h2
        exact absurd (Option.some_injective _ h2).symm hrc

/-- Witness for C6: with the oracle score 1 below the threshold 2, the result
is the cleaned fallback, and the theorem transports it to the threshold 3. -/
theorem c6_threshold_monotonicity_witness :
    guess_supplier_name (fun _ _ => false) (fun _ _ => [1]) (some (ofS "Siemen"))
      [ofS "Siemens"] [] 3 = some (cleanedOf (fun _ _ => false) (ofS "Siemen") []) :=
  (c6_threshold_monotonicity (fun _ _ => false) (fun _ _ => [1]) (ofS "Siemen")
    [ofS "Siemens"] [] 2 3 (by norm_num)).1 (by decide)

/-- C9: a missing geolocation mapping file yields the empty mapping together
with exactly one warning that contains the file path, without failing; a
lookup on a missing key returns the supplied default, and a KeyError is
raised if and only if raise_on_missing is true and the upper-cased name is
absent from the mapping. -/
theorem c9_geoloc_error_handling :
    (∀ (V : Type) (parse : PyStr → List (PyStr × V)) (path : PyStr),
       load_data parse path none = ([], [fileNotFoundMsg path])
       ∧ (load_data parse path none).2.length = 1
       ∧ occursIn path (fileNotFoundMsg path))
    ∧ (∀ (V : Type) (name : PyStr) (rules : List (PyStr × V)) (d : Option V),
        pyLookup (pyUpper name) rules = none →
        get_geoloc name rules d false = Except.ok d)
    ∧ (∀ (V : Type) (name : PyStr) (rules : List (PyStr × V)) (d : Option V) (b : Bool),
        (∃ e, get_geoloc name rules d b = Except.error e)
          ↔ (b = true ∧ pyLookup (pyUpper name) rules = none)) := by
  refine ⟨fun V parse path => ⟨rfl, rfl, ⟨ofS "Geolocation mapping file not found: ", [],
      by simp [fileNotFoundMsg]⟩⟩,
    fun V name rules d h => by simp [get_geoloc, h],
    fun V name rules d b => ?_⟩
  simp only [get_geoloc]
  cases hlook : pyLookup (pyUpper name) rules with
  | some v =>
    simp
  | none =>
    cases b with
    | false => simp
    | true => exact ⟨fun _ => ⟨rfl, rfl⟩, fun _ => ⟨keyErrorMsg name, rfl⟩⟩

/-- Witness for C9 at concrete inputs: the lookup of a missing key with a
default and without raise_on_missing returns the default. -/
theorem c9_geoloc_error_handling_witness :
    get_geoloc (ofS "Siemens") ([] : List (PyStr × List ℚ)) (some [1, 2]) false
      = Except.ok (some [1, 2]) :=
  c9_geoloc_error_handling.2.1 (List ℚ) (ofS "Siemens") [] (some [1, 2]) rfl

/-- If every remaining element is at most the running maximum, the numpy
argmax scan keeps the current best index. -/
theorem argmaxAux_all_le (l : List ℚ) : ∀ (cur : ℚ) (k best : Nat),
    (∀ j, j < l.length → l.getD j 0 ≤ cur) → argmaxAux l cur k best = best := by
  induction l with
  | nil => intro cur k best _; rfl
  | cons x rest ih =>
    intro cur k best hall
    have hx : x ≤ cur := by
      have := hall 0 (Nat.succ_pos _)
      simpa using this
    rw [argmaxAux, if_neg (not_lt.mpr hx)]
    exact ih cur (k + 1) best (fun j hj => by
      have := hall (j + 1) (Nat.succ_lt_succ hj)
      simpa using this)

/-- The numpy argmax scan lands on the first index attaining the maximum when
that maximum exceeds the running one. -/
theorem argmaxAux_first_max (l : List ℚ) : ∀ (i : Nat) (cur : ℚ) (k best : Nat),
    i < l.length →
    (∀ j, j < l.length → l.getD j 0 ≤ l.getD i 0) →
    (∀ j, j < i → l.getD j 0 < l.getD i 0) →
    cur < l.getD i 0 →
    argmaxAux l cur k best = k + i := by
  induction l with
  | nil => intro i cur k best hi; exact absurd hi (Nat.not_lt_zero i)
  | cons x rest ih =>
    intro i cur k best hi hmax hfirst hcur
    match i with
    | 0 =>
      have hcur0 : cur < x := by simpa using hcur
      rw [argmaxAux, if_pos hcur0]
      rw [argmaxAux_all_le rest x (k + 1) k (fun j hj => by
        have := hmax (j + 1) (Nat.succ_lt_succ hj)
        simpa using this)]
      omega
    | i + 1 =>
      have hshift_max : ∀ j, j < rest.length → rest.getD j 0 ≤ rest.getD i 0 := by
        intro j hj
        have := hmax (j + 1) (Nat.succ_lt_succ hj)
        simpa using this
      have hshift_first : ∀ j, j < i → rest.getD j 0 < rest.getD i 0 := by
        intro j hj
        have := hfirst (j + 1) (Nat.succ_lt_succ hj)
        simpa using this
      have hi2 : i < rest.length := Nat.lt_of_succ_lt_succ hi
      by_cases hbr : x > cur
      · rw [argmaxAux, if_pos hbr]
        have hx_lt : x < rest.getD i 0 := by
          have := hfirst 0 (Nat.succ_pos _)
          simpa using this
        rw [ih i x (k + 1) k hi2 hshift_max hshift_first hx_lt]
        omega
      · rw [argmaxAux, if_neg hbr]
        have hcur2 : cur < rest.getD i 0 := by simpa using hcur
        rw [ih i cur (k + 1) best hi2 hshift_max hshift_first hcur2]
        omega

/-- numpy argmax returns the least index attaining the maximum. -/
theorem npArgmax_first_max (l : List ℚ) (i : Nat) :
    i < l.length → (∀ j, j < l.length → l.getD j 0 ≤ l.getD i 0) →
    (∀ j, j < i → l.getD j 0 < l.getD i 0) → npArgmax l = i := by
  match l with
  | [] => intro hi; exact absurd hi (Nat.not_lt_zero i)
  | x :: rest =>
    intro hi hmax hfirst
    match i with
    | 0 =>
      rw [npArgmax]
      exact argmaxAux_all_le rest x 1 0 (fun j hj => by
        have := hmax (j + 1) (Nat.succ_lt_succ hj)
        simpa using this)
    | i + 1 =>
      rw [npArgmax]
      have hshift_max : ∀ j, j < rest.length → rest.getD j 0 ≤ rest.getD i 0 := by
        intro j hj
        have := hmax (j + 1) (Nat.succ_lt_succ hj)
        simpa using this
      have hshift_first : ∀ j, j < i → rest.getD j 0 < rest.getD i 0 := by
        intro j hj
        have := hfirst (j + 1) (Nat.succ_lt_succ hj)
        simpa using this
      have hx_lt : x < rest.getD i 0 := by
        have := hfirst 0 (Nat.succ_pos _)
        simpa using this
      rw [argmaxAux_first_max rest i x 1 0 (Nat.lt_of_succ_lt_succ hi)
        hshift_max hshift_first hx_lt]
      omega

/-- If every remaining ratio is at most the running best score, the difflib
loop keeps the current best pair. -/
theorem fuzzyLoop_all_le (ratio : PyStr → PyStr → ℚ) (target : PyStr)
    (cands : List PyStr) : ∀ (cur : ℚ) (acc : Option PyStr),
    (∀ j, j < cands.length → ratio target (rough_clean (cands.getD j [])) ≤ cur) →
    fuzzyLoop ratio target cands cur acc = (cur, acc) := by
  induction cands with
  | nil => intro cur acc _; rfl
  | cons c rest ih =>
    intro cur acc hall
    have hc : ratio target (rough_clean c) ≤ cur := by
      have := hall 0 (Nat.succ_pos _)
      simpa using this
    rw [fuzzyLoop]
    simp only [if_neg (not_lt.mpr hc)]
    exact ih cur acc (fun j hj => by
      have := hall (j + 1) (Nat.succ_lt_succ hj)
      simpa using this)

/-- The difflib loop selects the first candidate attaining the maximal ratio
when that maximum exceeds the running best score. -/
theorem fuzzyLoop_first_max (ratio : PyStr → PyStr → ℚ) (target : PyStr)
    (cands : List PyStr) : ∀ (i : Nat) (cur : ℚ) (acc : Option PyStr),
    i < cands.length →
    (∀ j, j < cands.length → ratio target (rough_clean (cands.getD j []))
      ≤ ratio target (rough_clean (cands.getD i []))) →
    (∀ j, j < i → ratio target (rough_clean (cands.getD j []))
      < ratio target (rough_clean (cands.getD i []))) →
    cur < ratio target (rough_clean (cands.getD i [])) →
    fuzzyLoop ratio target cands cur acc
      = (ratio target (rough_clean (cands.getD i [])), some (cands.getD i [])) := by
  induction cands with
  | nil => intro i cur acc hi; exact absurd hi (Nat.not_lt_zero i)
  | cons c rest ih =>
    intro i cur acc hi hmax hfirst hcur
    match i with
    | 0 =>
      have hcur0 : cur < ratio target (rough_clean c) := by simpa using hcur
      rw [fuzzyLoop]
      simp only [if_pos hcur0]
      rw [fuzzyLoop_all_le ratio target rest (ratio target (rough_clean c)) (some c)
        (fun j hj => by
          have := hmax (j + 1) (Nat.succ_lt_succ hj)
          simpa using this)]
      simp
    | i + 1 =>
      have hshift_max : ∀ j, j < rest.length →
          ratio target (rough_clean (rest.getD j []))
            ≤ ratio target (rough_clean (rest.getD i [])) := by
        intro j hj
        have := hmax (j + 1) (Nat.succ_lt_succ hj)
        simpa using this
      have hshift_first : ∀ j, j < i →
          ratio target (rough_clean (rest.getD j []))
            < ratio target (rough_clean (rest.getD i [])) := by
        intro j hj
        have := hfirst (j + 1) (Nat.succ_lt_succ hj)
        simpa using this
      have hi2 : i < rest.length := Nat.lt_of_succ_lt_succ hi
      have hc_lt : ratio target (rough_clean c)
          < ratio target (rough_clean (rest.getD i [])) := by
        have := hfirst 0 (Nat.succ_pos _)
        simpa using this
      by_cases hbr : ratio target (rough_clean c) > cur
      · rw [fuzzyLoop]
        simp only [if_pos hbr]
        have := ih i (ratio target (rough_clean c)) (some c) hi2
          hshift_max hshift_first hc_lt
        rw [this]
        simp
      · rw [fuzzyLoop]
        simp only [if_neg hbr]
        have hcur2 : cur < ratio target (rough_clean (rest.getD i [])) := by
          simpa using hcur
        have := ih i cur acc hi2 hshift_max hshift_first hcur2
        rw [this]
        simp

/-- C8: tie-breaking is deterministic by list order in both strategies.  In
the vector strategy, whenever scoring is reached and i is the least index
attaining the maximal similarity with score at or above the threshold, the
reference entry at index i is selected; in the difflib strategy, whenever i is
the least index attaining the maximal positive ratio at or above min_ratio,
the reference entry at index i is selected. -/
theorem c8_tie_break_by_list_order :
    (∀ (rx : PyStr → PyStr → Bool) (sim : PyStr → List PyStr → List ℚ)
       (name : PyStr) (refs : List PyStr) (rules : List Rule) (t : ℚ)
       (sims : List ℚ) (i : Nat),
       refs ≠ [] →
       cleanedOf rx name rules ∉ refs →
       pyStripWs (rough_clean (cleanedOf rx name rules)) ≠ [] →
       ((refs.map rough_clean).any (fun c => !c.isEmpty)) = true →
       sim (rough_clean (cleanedOf rx name rules)) (refs.map rough_clean) = sims →
       i < sims.length →
       (∀ j, j < sims.length → sims.getD j 0 ≤ sims.getD i 0) →
       (∀ j, j < i → sims.getD j 0 < sims.getD i 0) →
       sims.getD i 0 ≥ t →
       guess_supplier_name rx sim (some name) refs rules t = some (refs.getD i []))
    ∧ (∀ (rx : PyStr → PyStr → Bool) (ratio : PyStr → PyStr → ℚ)
        (name : PyStr) (refs : List PyStr) (rules : List Rule) (t : ℚ) (i : Nat),
        refs ≠ [] →
        pyStripWs (rough_clean (cleanedOf rx name rules)) ≠ [] →
        i < refs.length →
        (∀ j, j < refs.length →
          ratio (rough_clean (cleanedOf rx name rules)) (rough_clean (refs.getD j []))
            ≤ ratio (rough_clean (cleanedOf rx name rules)) (rough_clean (refs.getD i []))) →
        (∀ j, j < i →
          ratio (rough_clean (cleanedOf rx name rules)) (rough_clean (refs.getD j []))
            < ratio (rough_clean (cleanedOf rx name rules)) (rough_clean (refs.getD i []))) →
        0 < ratio (rough_clean (cleanedOf rx name rules)) (rough_clean (refs.getD i [])) →
        ratio (rough_clean (cleanedOf rx name rules)) (rough_clean (refs.getD i [])) ≥ t →
        fuzzy_guess_supplier_name rx ratio (some name) refs rules t
          = some (refs.getD i [])) := by
  constructor
  · intro rx sim name refs rules t sims i hne hmem hstrip hany hsims hi hmax hfirst hscore
    have hguard : ¬ (pyStripWs (rough_clean (cleanedOf rx name rules)) = []
        ∨ ¬ ((refs.map rough_clean).any (fun c => !c.isEmpty)) = true) := by
      push_neg
      exact ⟨hstrip, hany⟩
    have hsne : sims ≠ [] := by
      intro h
      rw [h] at hi
      exact absurd hi (Nat.not_lt_zero i)
    have hidx : npArgmax sims = i := npArgmax_first_max sims i hi hmax hfirst
    simp only [guess_supplier_name, hne, if_false]
    rw [if_neg hmem, if_neg hguard, hsims, if_neg hsne, hidx, if_pos hscore]
  · intro rx ratio name refs rules t i hne hstrip hi hmax hfirst hpos hscore
    have hloop := fuzzyLoop_first_max ratio (rough_clean (cleanedOf rx name rules))
      refs i 0 none hi hmax hfirst hpos
    simp only [fuzzy_guess_supplier_name, hne, if_false]
    rw [if_neg (fun h => hstrip h), hloop]
    simp only [if_pos hscore]

/-- Witness for C8: with oracle rows whose maximum is attained at indices 1
and 2, both strategies select the entry at the smaller index 1. -/
theorem c8_tie_break_by_list_order_witness :
    guess_supplier_name (fun _ _ => false) (fun _ _ => [0, 2, 2]) (some (ofS "Xy"))
        [ofS "Aa", ofS "Bb", ofS "Cc"] [] 1 = some (ofS "Bb")
    ∧ fuzzy_guess_supplier_name (fun _ _ => false)
        (fun _ c => if c = ofS "bb" ∨ c = ofS "cc" then 2 else 0) (some (ofS "Xy"))
        [ofS "Aa", ofS "Bb", ofS "Cc"] [] 1 = some (ofS "Bb") := by
  constructor
  · have h := c8_tie_break_by_list_order.1 (fun _ _ => false) (fun _ _ => [0, 2, 2])
      (ofS "Xy") [ofS "Aa", ofS "Bb", ofS "Cc"] [] 1 [0, 2, 2] 1
      (by decide) (by decide) (by decide) (by decide) rfl (by decide)
      (by decide) (by decide) (by decide)
    rw [h]
    decide
  · have h := c8_tie_break_by_list_order.2 (fun _ _ => false)
      (fun _ c => if c = ofS "bb" ∨ c = ofS "cc" then 2 else 0)
      (ofS "Xy") [ofS "Aa", ofS "Bb", ofS "Cc"] [] 1 1
      (by decide) (by decide) (by decide) (by decide) (by decide) (by decide) (by decide)
    rw [h]
    decide

/-- C1 is refuted as stated: on the singleton input list containing the empty
string, the batch resolver yields the absence marker None (it strips each raw
name and maps blank names to None), while the single-query path returns the
cleaned empty string, so the two outputs differ before any similarity scoring
is involved. -/
theorem c1_counterexample :
    batch_guess_supplier_names (fun _ _ => false) (fun _ _ => []) [some (ofS "")]
        [ofS "Alstom"] [] 0 = [none]
    ∧ [some (ofS "")].map (fun n => guess_supplier_name (fun _ _ => false)
        (fun _ _ => []) n [ofS "Alstom"] [] 0) = [some (ofS "")]
    ∧ ([none] : List (Option PyStr)) ≠ [some (ofS "")] := by decide

/-- C1 amended: the batch resolver agrees pointwise with the single-query
path on absent entries and on every name without surrounding whitespace that
is non-empty and whose candidate is not a verbatim reference-list member,
provided some reference cleans to a non-empty string and the shared model
returns the same non-empty score rows as the per-query model (the batch path
strips names, maps blank names to None instead of the cleaned fallback, and
has no exact-match shortcut, so those cases are excluded). -/
theorem c1_amended_batch_pointwise :
    ∀ (rx : PyStr → PyStr → Bool) (sim : PyStr → List PyStr → List ℚ)
      (names : List (Option PyStr)) (refs : List PyStr) (rules : List Rule) (t : ℚ),
      refs ≠ [] →
      (∃ r ∈ refs, rough_clean r ≠ []) →
      (∀ tgt, sim tgt (refs.map rough_clean) ≠ []) →
      (∀ s, some s ∈ names → pyStripWs s = s ∧ s ≠ [] ∧ cleanedOf rx s rules ∉ refs) →
      batch_guess_supplier_names rx sim names refs rules t
        = names.map (fun n => guess_supplier_name rx sim n refs rules t) := by
  intro rx sim names refs rules t hne hex hlen hgood
  simp only [batch_guess_supplier_names, hne, if_false]
  apply List.map_congr_left
  intro n hn
  match n with
  | none => rfl
  | some s =>
    obtain ⟨hstrip, hsne, hmem⟩ := hgood s hn
    simp only [batchItem, guess_supplier_name, hne, if_false, hstrip]
    rw [if_neg hsne, if_neg hmem]
    by_cases htgt : pyStripWs (rough_clean (cleanedOf rx s rules)) = []
    · rw [if_pos htgt, if_pos (Or.inl htgt)]
    · have hany : (refs.map rough_clean).any (fun c => !c.isEmpty) = true := by
        obtain ⟨r, hr, hrne⟩ := hex
        simp only [List.any_map, List.any_eq_true, Function.comp]
        refine ⟨r, hr, ?_⟩
        simpa [List.isEmpty_iff] using hrne
      have hguard : ¬ (pyStripWs (rough_clean (cleanedOf rx s rules)) = []
          ∨ ¬ (refs.map rough_clean).any (fun c => !c.isEmpty) = true) := by
        push_neg
        exact ⟨htgt, hany⟩
      have hs := hlen (rough_clean (cleanedOf rx s rules))
      rw [if_neg htgt, if_neg hguard, if_pos hs, if_neg hs]

/-- Witness for the amended C1: a two-entry input list (an absent entry and a
clean non-blank name) on which batch and single paths agree. -/
theorem c1_amended_batch_pointwise_witness :
    batch_guess_supplier_names (fun _ _ => false) (fun _ _ => [1])
        [none, some (ofS "Siemen")] [ofS "Siemens"] [] 0
      = [none, some (ofS "Siemen")].map (fun n => guess_supplier_name
          (fun _ _ => false) (fun _ _ => [1]) n [ofS "Siemens"] [] 0) :=
  c1_amended_batch_pointwise (fun _ _ => false) (fun _ _ => [1])
    [none, some (ofS "Siemen")] [ofS "Siemens"] [] 0 (by decide)
    ⟨ofS "Siemens", by decide⟩ (fun _ => by simp)
    (by
      intro s hs
      simp only [List.mem_cons, List.not_mem_nil, or_false, reduceCtorEq, false_or,
        Option.some.injEq] at hs
      subst hs
      decide)

/-! ## Lemmas for the idempotence analysis of rough_clean -/

theorem pyLowerChar_cases (c : Char) :
    pyLowerChar c = c ∨ pyLowerChar c ∈ lowerAscii := by
  unfold pyLowerChar
  split
  all_goals first | (left; rfl) | (right; decide)

theorem pyLowerChar_fix_lower : ∀ d ∈ lowerAscii, pyLowerChar d = d := by decide

theorem pyLowerChar_idem (c : Char) :
    pyLowerChar (pyLowerChar c) = pyLowerChar c := by
  rcases pyLowerChar_cases c with h | h
  · rw [h]
    exact h
  · exact pyLowerChar_fix_lower _ h

theorem pyLower_fix {s : PyStr} (h : ∀ c ∈ s, pyLowerChar c = c) : pyLower s = s := by
  induction s with
  | nil => rfl
  | cons c rest ih =>
    simp only [pyLower, List.map_cons] at ih ⊢
    rw [h c (List.mem_cons_self c rest), ih (fun a ha => h a (List.mem_cons_of_mem c ha))]

theorem mem_of_mem_dropLeading {p : Char → Bool} {c : Char} :
    ∀ {s : PyStr}, c ∈ dropLeading p s → c ∈ s := by
  intro s
  induction s with
  | nil => simp [dropLeading]
  | cons a rest ih =>
    simp only [dropLeading]
    split
    · intro h
      exact List.mem_cons_of_mem a (ih h)
    · exact id

theorem dropTrailing_cons (p : Char → Bool) (c : Char) (rest : PyStr) :
    dropTrailing p (c :: rest)
      = match dropTrailing p rest with
        | [] => if p c then [] else [c]
        | r :: rs => c :: r :: rs := rfl

theorem mem_of_mem_dropTrailing {p : Char → Bool} {c : Char} :
    ∀ {s : PyStr}, c ∈ dropTrailing p s → c ∈ s := by
  intro s
  induction s with
  | nil => simp [dropTrailing]
  | cons a rest ih =>
    intro h
    rw [dropTrailing_cons] at h
    cases hd : dropTrailing p rest with
    | nil =>
      rw [hd] at h
      by_cases hpa : p a = true
      · rw [if_pos hpa] at h
        exact absurd h (List.not_mem_nil c)
      · rw [if_neg hpa] at h
        simp only [List.mem_singleton] at h
        simp [h]
    | cons r rs =>
      rw [hd] at h
      rcases List.mem_cons.mp h with h | h
      · simp [h]
      · rw [← hd] at h
        exact List.mem_cons_of_mem a (ih h)

theorem lstripSpace_fix {s : PyStr} (h : s.head? ≠ some ' ') : lstripSpace s = s := by
  cases s with
  | nil => rfl
  | cons c rest =>
    have hc : c ≠ ' ' := by simpa using h
    simp [lstripSpace, dropLeading, hc]

theorem dropTrailing_idem (p : Char → Bool) :
    ∀ s : PyStr, dropTrailing p (dropTrailing p s) = dropTrailing p s := by
  intro s
  induction s with
  | nil => rfl
  | cons c rest ih =>
    rw [dropTrailing_cons]
    cases hd : dropTrailing p rest with
    | nil =>
      by_cases hpc : p c = true
      · simp [hpc, dropTrailing]
      · simp [hpc, dropTrailing]
    | cons r rs =>
      rw [hd] at ih
      rw [dropTrailing_cons, ih]

theorem dropTrailing_append (p : Char → Bool) (a b : PyStr) :
    dropTrailing p (a ++ b)
      = if dropTrailing p b = [] then dropTrailing p a else a ++ dropTrailing p b := by
  induction a with
  | nil =>
    simp only [List.nil_append]
    split
    · rename_i hb
      rw [hb]
      rfl
    · simp
  | cons c a' ih =>
    rw [List.cons_append, dropTrailing_cons, ih]
    by_cases hb : dropTrailing p b = []
    · rw [if_pos hb, if_pos hb, dropTrailing_cons]
    · rw [if_neg hb, if_neg hb]
      obtain ⟨r, rs, hrs⟩ : ∃ r rs, dropTrailing p b = r :: rs := by
        cases h2 : dropTrailing p b with
        | nil => exact absurd h2 hb
        | cons r rs => exact ⟨r, rs, rfl⟩
      rw [hrs]
      cases a' with
      | nil => rfl
      | cons d a'' => rfl

theorem pyStartsWith_iff : ∀ (pat s : PyStr),
    pyStartsWith s pat = true ↔ ∃ t2, s = pat ++ t2 := by
  intro pat
  induction pat with
  | nil =>
    intro s
    simp [pyStartsWith]
  | cons p ps ih =>
    intro s
    cases s with
    | nil => simp [pyStartsWith]
    | cons c cs =>
      simp only [pyStartsWith, Bool.and_eq_true, decide_eq_true_eq, ih cs]
      constructor
      · rintro ⟨hcp, t2, rfl⟩
        exact ⟨t2, by rw [hcp, List.cons_append]⟩
      · rintro ⟨t2, heq⟩
        rw [List.cons_append] at heq
        injection heq with h1 h2
        exact ⟨h1, t2, h2⟩

theorem occursIn_cons {pat : PyStr} {c : Char} {rest : PyStr}
    (h : occursIn pat rest) : occursIn pat (c :: rest) := by
  obtain ⟨l, r, rfl⟩ := h
  exact ⟨c :: l, r, rfl⟩

theorem occursCheck_iff (pat : PyStr) : ∀ s, occursCheck pat s = true ↔ occursIn pat s := by
  intro s
  induction s with
  | nil =>
    simp only [occursCheck]
    rw [pyStartsWith_iff]
    constructor
    · rintro ⟨t2, ht⟩
      exact ⟨[], t2, by simpa using ht⟩
    · rintro ⟨l, r, hl⟩
      have := hl.symm
      rw [List.append_assoc, List.append_eq_nil] at this
      obtain ⟨hl0, hpr⟩ := this
      rw [List.append_eq_nil] at hpr
      exact ⟨[], by simp [hpr.1]⟩
  | cons c rest ih =>
    simp only [occursCheck, Bool.or_eq_true]
    rw [pyStartsWith_iff, ih]
    constructor
    · rintro (⟨t2, ht⟩ | h)
      · exact ⟨[], t2, by simpa using ht⟩
      · exact occursIn_cons h
    · rintro ⟨l, r, hl⟩
      cases l with
      | nil =>
        exact Or.inl ⟨r, by simpa using hl⟩
      | cons d l2 =>
        rw [List.cons_append, List.cons_append] at hl
        injection hl with h1 h2
        exact Or.inr ⟨l2, r, by rw [h2, List.append_assoc]⟩

theorem pyReplaceAux_succ_cons (new old : PyStr) (fuel : Nat) (c : Char) (rest : PyStr) :
    pyReplaceAux new old (fuel + 1) (c :: rest)
      = if pyStartsWith (c :: rest) old then
          new ++ pyReplaceAux new old fuel ((c :: rest).drop old.length)
        else c :: pyReplaceAux new old fuel rest := rfl

theorem pyReplaceAux_not_occurs {old new : PyStr} :
    ∀ (fuel : Nat) (s : PyStr), ¬ occursIn old s → pyReplaceAux new old fuel s = s := by
  intro fuel
  induction fuel with
  | zero => intro s _; rfl
  | succ fuel ih =>
    intro s hno
    cases s with
    | nil => rfl
    | cons c rest =>
      rw [pyReplaceAux_succ_cons]
      have hsw : ¬ pyStartsWith (c :: rest) old = true := by
        intro hsw
        obtain ⟨t2, ht⟩ := (pyStartsWith_iff _ _).mp hsw
        exact hno ⟨[], t2, by simpa using ht⟩
      rw [if_neg hsw, ih rest (fun h => hno (occursIn_cons h))]

theorem pyReplace_not_occurs {s old new : PyStr} (h : ¬ occursIn old s) :
    pyReplace s old new = s := by
  unfold pyReplace
  split
  · rfl
  · exact pyReplaceAux_not_occurs s.length s h

theorem mem_of_mem_pyReplaceAux {new old : PyStr} {c : Char} :
    ∀ (fuel : Nat) (s : PyStr), c ∈ pyReplaceAux new old fuel s → c ∈ s ∨ c ∈ new := by
  intro fuel
  induction fuel with
  | zero => intro s h; exact Or.inl h
  | succ fuel ih =>
    intro s h
    cases s with
    | nil => exact Or.inl h
    | cons a rest =>
      rw [pyReplaceAux_succ_cons] at h
      by_cases hsw : pyStartsWith (a :: rest) old = true
      · rw [if_pos hsw] at h
        rcases List.mem_append.mp h with h | h
        · exact Or.inr h
        · rcases ih _ h with h | h
          · exact Or.inl (List.drop_subset _ _ h)
          · exact Or.inr h
      · rw [if_neg hsw] at h
        rcases List.mem_cons.mp h with h | h
        · exact Or.inl (by simp [h])
        · rcases ih rest h with h | h
          · exact Or.inl (List.mem_cons_of_mem _ h)
          · exact Or.inr h

theorem mem_of_mem_pyReplace {s old new : PyStr} {c : Char}
    (h : c ∈ pyReplace s old new) : c ∈ s ∨ c ∈ new := by
  unfold pyReplace at h
  split at h
  · exact Or.inl h
  · exact mem_of_mem_pyReplaceAux s.length s h

theorem not_mem_pyReplace {s old new : PyStr} {c : Char}
    (hs : c ∉ s) (hn : c ∉ new) : c ∉ pyReplace s old new :=
  fun h => (mem_of_mem_pyReplace h).elim hs hn

theorem pyReplaceAux_delete_all (d : Char) (new : PyStr) (hn : d ∉ new) :
    ∀ (fuel : Nat) (s : PyStr), s.length ≤ fuel → d ∉ pyReplaceAux new [d] fuel s := by
  intro fuel
  induction fuel with
  | zero =>
    intro s hs
    have hnil : s = [] := List.eq_nil_of_length_eq_zero (Nat.le_zero.mp hs)
    subst hnil
    simp [pyReplaceAux]
  | succ fuel ih =>
    intro s hs
    cases s with
    | nil => simp [pyReplaceAux]
    | cons a rest =>
      rw [pyReplaceAux_succ_cons]
      have hlen : rest.length ≤ fuel := by
        simpa using Nat.le_of_succ_le_succ hs
      by_cases hsw : pyStartsWith (a :: rest) [d] = true
      · rw [if_pos hsw]
        have hdrop : (a :: rest).drop ([d].length) = rest := rfl
        rw [hdrop]
        intro hmem
        rcases List.mem_append.mp hmem with h | h
        · exact hn h
        · exact ih rest hlen h
      · rw [if_neg hsw]
        have ha : a ≠ d := by
          intro h
          apply hsw
          subst h
          simp [pyStartsWith]
        intro hmem
        rcases List.mem_cons.mp hmem with h | h
        · exact ha h.symm
        · exact ih rest hlen h

theorem pyReplace_delete_all (d : Char) (new : PyStr) (hn : d ∉ new) (s : PyStr) :
    d ∉ pyReplace s [d] new := by
  unfold pyReplace
  rw [if_neg (by simp)]
  exact pyReplaceAux_delete_all d new hn s.length s (le_refl _)

theorem pySplitSpace_cons (c : Char) (rest : PyStr) :
    pySplitSpace (c :: rest)
      = if c = ' ' then [] :: pySplitSpace rest
        else match pySplitSpace rest with
          | [] => [[c]]
          | t :: ts => (c :: t) :: ts := rfl

theorem pySplitSpace_ne_nil : ∀ s : PyStr, pySplitSpace s ≠ [] := by
  intro s
  cases s with
  | nil => simp [pySplitSpace]
  | cons c rest =>
    rw [pySplitSpace_cons]
    by_cases hc : c = ' '
    · simp [hc]
    · rw [if_neg hc]
      cases h : pySplitSpace rest <;> simp

theorem mem_pySplitSpace_no_space : ∀ (s tok : PyStr), tok ∈ pySplitSpace s → ' ' ∉ tok := by
  intro s
  induction s with
  | nil =>
    intro tok h
    simp only [pySplitSpace, List.mem_singleton] at h
    simp [h]
  | cons c rest ih =>
    intro tok h
    rw [pySplitSpace_cons] at h
    by_cases hc : c = ' '
    · rw [if_pos hc] at h
      rcases List.mem_cons.mp h with h | h
      · simp [h]
      · exact ih tok h
    · rw [if_neg hc] at h
      cases hsp : pySplitSpace rest with
      | nil =>
        rw [hsp] at h
        rw [List.mem_singleton] at h
        subst h
        intro hmem
        rw [List.mem_singleton] at hmem
        exact hc hmem.symm
      | cons t ts =>
        rw [hsp] at h
        rcases List.mem_cons.mp h with h | h
        · subst h
          intro hmem
          rcases List.mem_cons.mp hmem with h2 | h2
          · exact hc h2.symm
          · exact ih t (by rw [hsp]; exact List.mem_cons_self t ts) h2
        · exact ih tok (by rw [hsp]; exact List.mem_cons_of_mem t h)

theorem mem_of_mem_token : ∀ (s tok : PyStr), tok ∈ pySplitSpace s → ∀ c ∈ tok, c ∈ s := by
  intro s
  induction s with
  | nil =>
    intro tok h c hc
    simp only [pySplitSpace, List.mem_singleton] at h
    subst h
    simp at hc
  | cons a rest ih =>
    intro tok h c hc
    rw [pySplitSpace_cons] at h
    by_cases ha : a = ' '
    · rw [if_pos ha] at h
      rcases List.mem_cons.mp h with h | h
      · subst h
        simp at hc
      · exact List.mem_cons_of_mem a (ih tok h c hc)
    · rw [if_neg ha] at h
      cases hsp : pySplitSpace rest with
      | nil =>
        rw [hsp] at h
        rw [List.mem_singleton] at h
        subst h
        rw [List.mem_singleton] at hc
        simp [hc]
      | cons t ts =>
        rw [hsp] at h
        rcases List.mem_cons.mp h with h | h
        · subst h
          rcases List.mem_cons.mp hc with h2 | h2
          · simp [h2]
          · exact List.mem_cons_of_mem a
              (ih t (by rw [hsp]; exact List.mem_cons_self t ts) c h2)
        · exact List.mem_cons_of_mem a
            (ih tok (by rw [hsp]; exact List.mem_cons_of_mem t h) c hc)

theorem pyJoinSpace_cons_cons (t t2 : PyStr) (ts : List PyStr) :
    pyJoinSpace (t :: t2 :: ts) = t ++ ' ' :: pyJoinSpace (t2 :: ts) := rfl

theorem pyJoinSpace_head_cons (c : Char) (t : PyStr) (ts : List PyStr) :
    pyJoinSpace ((c :: t) :: ts) = c :: pyJoinSpace (t :: ts) := by
  cases ts with
  | nil => rfl
  | cons t2 ts2 => rfl

theorem pyJoinSpace_split : ∀ s : PyStr, pyJoinSpace (pySplitSpace s) = s := by
  intro s
  induction s with
  | nil => rfl
  | cons c rest ih =>
    obtain ⟨t, ts, hts⟩ : ∃ t ts, pySplitSpace rest = t :: ts := by
      cases h2 : pySplitSpace rest with
      | nil => exact absurd h2 (pySplitSpace_ne_nil rest)
      | cons t ts => exact ⟨t, ts, rfl⟩
    rw [pySplitSpace_cons]
    by_cases hc : c = ' '
    · rw [if_pos hc, hts, pyJoinSpace_cons_cons, List.nil_append, ← hts, ih, hc]
    · rw [if_neg hc, hts, pyJoinSpace_head_cons, ← hts, ih]

theorem pySplitSpace_no_space_fix : ∀ t : PyStr, ' ' ∉ t → pySplitSpace t = [t] := by
  intro t
  induction t with
  | nil => intro _; rfl
  | cons c t2 ih =>
    intro h
    have hc : c ≠ ' ' := fun heq => h (by simp [heq])
    rw [pySplitSpace_cons, if_neg hc, ih (fun hm => h (List.mem_cons_of_mem c hm))]

theorem pySplitSpace_append_space (t z : PyStr) (h : ' ' ∉ t) :
    pySplitSpace (t ++ ' ' :: z) = t :: pySplitSpace z := by
  induction t with
  | nil =>
    simp only [List.nil_append]
    rw [pySplitSpace_cons, if_pos rfl]
  | cons c t2 ih =>
    have hc : c ≠ ' ' := fun heq => h (by simp [heq])
    rw [List.cons_append, pySplitSpace_cons, if_neg hc,
      ih (fun hm => h (List.mem_cons_of_mem c hm))]

theorem mem_chars_pyJoinSpace : ∀ (ts : List PyStr) (c : Char),
    c ∈ pyJoinSpace ts → (∃ t ∈ ts, c ∈ t) ∨ c = ' ' := by
  intro ts
  induction ts with
  | nil =>
    intro c h
    simp [pyJoinSpace] at h
  | cons t ts ih =>
    intro c h
    cases ts with
    | nil => exact Or.inl ⟨t, by simp, h⟩
    | cons t2 ts2 =>
      rw [pyJoinSpace_cons_cons] at h
      rcases List.mem_append.mp h with h | h
      · exact Or.inl ⟨t, by simp, h⟩
      · rcases List.mem_cons.mp h with h | h
        · exact Or.inr h
        · rcases ih c h with ⟨t3, ht3, hc⟩ | h
          · exact Or.inl ⟨t3, List.mem_cons_of_mem t ht3, hc⟩
          · exact Or.inr h

theorem dropTrailing_fix_of_not {p : Char → Bool} :
    ∀ s : PyStr, (∀ c ∈ s, p c = false) → dropTrailing p s = s := by
  intro s
  induction s with
  | nil => intro _; rfl
  | cons c rest ih =>
    intro h
    rw [dropTrailing_cons, ih (fun a ha => h a (List.mem_cons_of_mem c ha))]
    cases rest with
    | nil => simp [h c (List.mem_cons_self c [])]
    | cons r rs => rfl

theorem rstripSpace_no_space_fix {t : PyStr} (h : ' ' ∉ t) : rstripSpace t = t := by
  apply dropTrailing_fix_of_not
  intro c hc
  simp only [decide_eq_false_iff_not]
  intro heq
  exact h (heq ▸ hc)

theorem rstripSpace_append (a b : PyStr) :
    rstripSpace (a ++ b)
      = if rstripSpace b = [] then rstripSpace a else a ++ rstripSpace b := by
  simp only [rstripSpace]
  exact dropTrailing_append _ a b

theorem rstripSpace_cons_space_nil {z : PyStr} (hz : rstripSpace z = []) :
    rstripSpace (' ' :: z) = [] := by
  simp only [rstripSpace] at hz ⊢
  rw [dropTrailing_cons, hz]
  simp

theorem rstripSpace_cons_space {z : PyStr} (hz : rstripSpace z ≠ []) :
    rstripSpace (' ' :: z) = ' ' :: rstripSpace z := by
  obtain ⟨r, rs, hrs⟩ : ∃ r rs, rstripSpace z = r :: rs := by
    cases h2 : rstripSpace z with
    | nil => exact absurd h2 hz
    | cons r rs => exact ⟨r, rs, rfl⟩
  simp only [rstripSpace] at hrs ⊢
  rw [dropTrailing_cons, hrs]

theorem rstripSpace_idem (s : PyStr) : rstripSpace (rstripSpace s) = rstripSpace s := by
  simp only [rstripSpace]
  exact dropTrailing_idem _ s

/-- Each token of the split of the stripped rejoin of space-free tokens is
either empty or one of the original tokens: tokens never merge or mutate. -/
theorem tokens_of_rstrip_join : ∀ (ts : List PyStr), (∀ t ∈ ts, ' ' ∉ t) →
    ∀ tok ∈ pySplitSpace (rstripSpace (pyJoinSpace ts)), tok = [] ∨ tok ∈ ts := by
  intro ts
  induction ts with
  | nil =>
    intro _ tok htok
    left
    rw [show pySplitSpace (rstripSpace (pyJoinSpace ([] : List PyStr))) = [[]] from rfl,
      List.mem_singleton] at htok
    exact htok
  | cons t ts ih =>
    intro hsp tok htok
    have hts : ' ' ∉ t := hsp t (List.mem_cons_self _ _)
    cases ts with
    | nil =>
      rw [show pyJoinSpace [t] = t from rfl, rstripSpace_no_space_fix hts,
        pySplitSpace_no_space_fix t hts, List.mem_singleton] at htok
      right
      simp [htok]
    | cons t2 ts2 =>
      rw [pyJoinSpace_cons_cons] at htok
      by_cases hjr : rstripSpace (pyJoinSpace (t2 :: ts2)) = []
      · have h1 : rstripSpace (' ' :: pyJoinSpace (t2 :: ts2)) = [] :=
          rstripSpace_cons_space_nil hjr
        have h2 : rstripSpace (t ++ ' ' :: pyJoinSpace (t2 :: ts2)) = t := by
          rw [rstripSpace_append, if_pos h1, rstripSpace_no_space_fix hts]
        rw [h2, pySplitSpace_no_space_fix t hts, List.mem_singleton] at htok
        right
        simp [htok]
      · have h1 : rstripSpace (' ' :: pyJoinSpace (t2 :: ts2))
            = ' ' :: rstripSpace (pyJoinSpace (t2 :: ts2)) := rstripSpace_cons_space hjr
        have h1ne : rstripSpace (' ' :: pyJoinSpace (t2 :: ts2)) ≠ [] := by
          rw [h1]
          simp
        have h2 : rstripSpace (t ++ ' ' :: pyJoinSpace (t2 :: ts2))
            = t ++ ' ' :: rstripSpace (pyJoinSpace (t2 :: ts2)) := by
          rw [rstripSpace_append, if_neg h1ne, h1]
        rw [h2, pySplitSpace_append_space _ _ hts] at htok
        rcases List.mem_cons.mp htok with h | h
        · right
          simp [h]
        · rcases ih (fun u hu => hsp u (List.mem_cons_of_mem t hu)) tok h with h | h
          · exact Or.inl h
          · exact Or.inr (List.mem_cons_of_mem t h)

theorem mem_of_mem_foldl_replace {new : PyStr} {c : Char} :
    ∀ (ws : List PyStr) (t : PyStr),
      c ∈ ws.foldl (fun a w => pyReplace a w new) t → c ∈ t ∨ c ∈ new := by
  intro ws
  induction ws with
  | nil => intro t h; exact Or.inl h
  | cons w ws ih =>
    intro t h
    rw [List.foldl_cons] at h
    rcases ih _ h with h | h
    · exact mem_of_mem_pyReplace h
    · exact Or.inr h

theorem not_mem_foldl_replace {new : PyStr} {c : Char} (hn : c ∉ new)
    (ws : List PyStr) (t : PyStr) (ht : c ∉ t) :
    c ∉ ws.foldl (fun a w => pyReplace a w new) t :=
  fun h => (mem_of_mem_foldl_replace ws t h).elim ht hn

theorem foldl_replace_fix {new : PyStr} :
    ∀ (ws : List PyStr) (t : PyStr), (∀ w ∈ ws, ¬ occursIn w t) →
      ws.foldl (fun a w => pyReplace a w new) t = t := by
  intro ws
  induction ws with
  | nil => intro t _; rfl
  | cons w ws ih =>
    intro t h
    rw [List.foldl_cons, pyReplace_not_occurs (h w (List.mem_cons_self _ _))]
    exact ih t (fun u hu => h u (List.mem_cons_of_mem w hu))

theorem foldl_delete_not_mem {new : PyStr} :
    ∀ (ws : List PyStr) (t : PyStr) (d : Char), [d] ∈ ws → d ∉ new →
      d ∉ ws.foldl (fun a w => pyReplace a w new) t := by
  intro ws
  induction ws with
  | nil => intro t d h _; simp at h
  | cons w ws ih =>
    intro t d h hn
    rcases List.mem_cons.mp h with h | h
    · rw [List.foldl_cons, ← h]
      exact not_mem_foldl_replace hn ws _ (pyReplace_delete_all d new hn t)
    · rw [List.foldl_cons]
      exact ih _ d h hn

theorem rough_clean_eq (text : PyStr) :
    rough_clean text
      = rstripSpace (pyJoinSpace ((pySplitSpace (cleanStage2 (cleanStage1
          (lstripSpace (pyLower text))))).filter
          (fun i => decide (i ∉ stopwords_to_delete)))) := rfl

theorem mem_rough_clean_stage {x : PyStr} {c : Char} (h : c ∈ rough_clean x) :
    c = ' ' ∨ c ∈ cleanStage2 (cleanStage1 (lstripSpace (pyLower x))) := by
  rw [rough_clean_eq] at h
  simp only [rstripSpace] at h
  have h1 := mem_of_mem_dropTrailing h
  rcases mem_chars_pyJoinSpace _ c h1 with ⟨t, ht, hc⟩ | h2
  · exact Or.inr (mem_of_mem_token _ t (List.mem_of_mem_filter ht) c hc)
  · exact Or.inl h2

theorem mem_rough_clean_lower {x : PyStr} {c : Char} (h : c ∈ rough_clean x) :
    c = ' ' ∨ c ∈ pyLower x := by
  rcases mem_rough_clean_stage h with h | h
  · exact Or.inl h
  · simp only [cleanStage2, cleanStage1] at h
    rcases mem_of_mem_foldl_replace _ _ h with h | h
    · rcases mem_of_mem_foldl_replace _ _ h with h | h
      · exact Or.inr (mem_of_mem_dropLeading h)
      · simp at h
    · rw [List.mem_singleton] at h
      exact Or.inl h

theorem pyLower_rough_clean_fix (x : PyStr) :
    pyLower (rough_clean x) = rough_clean x := by
  apply pyLower_fix
  intro c hc
  rcases mem_rough_clean_lower hc with h | h
  · rw [h]
    rfl
  · simp only [pyLower, List.mem_map] at h
    obtain ⟨a, _, rfl⟩ := h
    exact pyLowerChar_idem a

theorem punct_not_mem_rough_clean (x : PyStr) (d : Char)
    (hd : [d] ∈ punct_to_delete ∨ [d] ∈ punct_to_space) (hds : d ≠ ' ') :
    d ∉ rough_clean x := by
  intro hmem
  rcases mem_rough_clean_stage hmem with h | h
  · exact hds h
  · simp only [cleanStage2, cleanStage1] at h
    have hns : d ∉ [' '] := by simp [hds]
    rcases hd with hd | hd
    · have h1 : d ∉ punct_to_delete.foldl (fun a w => pyReplace a w [])
          (lstripSpace (pyLower x)) :=
        foldl_delete_not_mem _ _ d hd (by simp)
      exact not_mem_foldl_replace hns _ _ h1 h
    · exact foldl_delete_not_mem _ _ d hd hns h

theorem token_rough_clean_not_stop (x : PyStr) :
    ∀ tok ∈ pySplitSpace (rough_clean x), tok ∉ stopwords_to_delete := by
  intro tok htok
  rw [rough_clean_eq] at htok
  have hsp : ∀ t ∈ (pySplitSpace (cleanStage2 (cleanStage1 (lstripSpace
      (pyLower x))))).filter (fun i => decide (i ∉ stopwords_to_delete)), ' ' ∉ t :=
    fun t ht => mem_pySplitSpace_no_space _ t (List.mem_of_mem_filter ht)
  rcases tokens_of_rstrip_join _ hsp tok htok with h | h
  · subst h
    decide
  · have := List.of_mem_filter h
    simpa using this

theorem rstripSpace_rough_clean (x : PyStr) :
    rstripSpace (rough_clean x) = rough_clean x := by
  rw [rough_clean_eq]
  exact rstripSpace_idem _

/-- Strings satisfying the normal-form conditions are fixed points of
rough_clean: every stage of the cleaner leaves them unchanged. -/
theorem rough_clean_fix {y : PyStr}
    (hlow : pyLower y = y)
    (hhead : lstripSpace y = y)
    (hdel : ∀ w ∈ punct_to_delete, ¬ occursIn w y)
    (hsp2 : ∀ w ∈ punct_to_space, ¬ occursIn w y)
    (htok : ∀ tok ∈ pySplitSpace y, tok ∉ stopwords_to_delete)
    (hrs : rstripSpace y = y) :
    rough_clean y = y := by
  rw [rough_clean_eq, hlow, hhead]
  rw [show cleanStage1 y = y from foldl_replace_fix _ y hdel]
  rw [show cleanStage2 y = y from foldl_replace_fix _ y hsp2]
  rw [List.filter_eq_self.mpr (fun tok ht => by simpa using htok tok ht)]
  rw [pyJoinSpace_split, hrs]

theorem occursIn_singleton {d : Char} {s : PyStr} : occursIn [d] s ↔ d ∈ s := by
  constructor
  · rintro ⟨l, r, rfl⟩
    simp
  · intro h
    obtain ⟨l, r, rfl⟩ := List.append_of_mem h
    exact ⟨l, r, by simp⟩

theorem occursIn_two_of_three {s : PyStr}
    (h : occursIn [' ', ' ', ' '] s) : occursIn [' ', ' '] s := by
  obtain ⟨l, r, rfl⟩ := h
  exact ⟨l, ' ' :: r, by simp⟩

/-- C3 is refuted as stated: cleaning the string a - b replaces the dash by a
space, leaving two consecutive spaces that the two-space squeeze (applied
before the dash replacement and only once) never revisits, so a second
cleaning pass still shrinks the string. -/
theorem c3_counterexample :
    rough_clean (ofS "a - b") = ofS "a  b"
    ∧ rough_clean (rough_clean (ofS "a - b")) = ofS "a b"
    ∧ rough_clean (rough_clean (ofS "a - b")) ≠ rough_clean (ofS "a - b") := by decide

/-- C3 amended: rough_clean is idempotent on every input whose cleaned form is
space-normalized, that is, contains no two consecutive spaces and does not
start with a space; the counterexample shows the restriction is needed. -/
theorem c3_amended_idempotent_on_normalized :
    ∀ x : PyStr,
      occursCheck (ofS "  ") (rough_clean x) = false →
      (rough_clean x).head? ≠ some ' ' →
      rough_clean (rough_clean x) = rough_clean x := by
  intro x hdd hhead
  have hno2 : ¬ occursIn (ofS "  ") (rough_clean x) := by
    rw [← occursCheck_iff, hdd]
    simp
  have hno2' : ¬ occursIn [' ', ' '] (rough_clean x) := by
    rw [show ([' ', ' '] : PyStr) = ofS "  " from rfl]
    exact hno2
  apply rough_clean_fix
  · exact pyLower_rough_clean_fix x
  · exact lstripSpace_fix hhead
  · intro w hw
    have hw5 : w = ofS "." ∨ w = ofS "\"" ∨ w = ofS "#" ∨ w = ofS ","
        ∨ w = ofS ";" := by simpa [punct_to_delete] using hw
    have hws : ∀ (d : Char), d ≠ ' ' → [d] ∈ punct_to_delete →
        ¬ occursIn [d] (rough_clean x) := fun d hds hdm hocc =>
      punct_not_mem_rough_clean x d (Or.inl hdm) hds (occursIn_singleton.mp hocc)
    rcases hw5 with rfl | rfl | rfl | rfl | rfl
    · exact hws '.' (by decide) (by decide)
    · exact hws '"' (by decide) (by decide)
    · exact hws '#' (by decide) (by decide)
    · exact hws ',' (by decide) (by decide)
    · exact hws ';' (by decide) (by decide)
  · intro w hw
    have hw4 : w = ofS "/" ∨ w = ofS "-" ∨ w = ofS "  " ∨ w = ofS "   " := by
      simpa [punct_to_space] using hw
    have hws : ∀ (d : Char), d ≠ ' ' → [d] ∈ punct_to_space →
        ¬ occursIn [d] (rough_clean x) := fun d hds hdm hocc =>
      punct_not_mem_rough_clean x d (Or.inr hdm) hds (occursIn_singleton.mp hocc)
    rcases hw4 with rfl | rfl | rfl | rfl
    · exact hws '/' (by decide) (by decide)
    · exact hws '-' (by decide) (by decide)
    · exact hno2
    · intro hocc
      exact hno2' (occursIn_two_of_three hocc)
  · exact token_rough_clean_not_stop x
  · exact rstripSpace_rough_clean x

/-- Witness for the amended C3 at a concrete input whose cleaned form is
space-normalized. -/
theorem c3_amended_idempotent_on_normalized_witness :
    rough_clean (rough_clean (ofS "Hello World"))
      = rough_clean (ofS "Hello World") :=
  c3_amended_idempotent_on_normalized (ofS "Hello World") (by decide) (by decide)

end LoopPilot
